import Mathlib

/-!
Verification of the core library of `package-lock-merge-driver`
(`src/lib.ts`), a Git merge driver for npm lockfiles.

Strings are modelled as `List Char` (`Str`).  Effectful functions are
modelled as pure functions over an explicit environment describing the
external state they consult (Git config listings, file contents, outcomes
of external commands), returning a result together with the list of
external mutations they perform.  JavaScript regular expressions used by
the source are modelled by equivalent character-list scanners; the driver
name interpolated into a regex is treated as a literal string, which is
faithful for the slugified driver names the CLI produces.
-/

namespace PLMD

/-- Strings are modelled as lists of characters. -/
abbrev Str := List Char

/-- The double-quote character. -/
def dq : Char := Char.ofNat 34

/-- The single-quote character. -/
def sq : Char := Char.ofNat 39

/-- The carriage-return character. -/
def cr : Char := Char.ofNat 13

/-- The line-feed character. -/
def lf : Char := Char.ofNat 10

/-- JavaScript regex `\s` restricted to the ASCII whitespace characters
(space, tab, line feed, carriage return, vertical tab, form feed). -/
def isJsSpace (c : Char) : Bool :=
  c = ' ' || c = '\t' || c = lf || c = cr || c = Char.ofNat 11 || c = Char.ofNat 12

/-- `String.prototype.trim`: strip whitespace from both ends. -/
def jsTrim (s : Str) : Str :=
  ((s.dropWhile isJsSpace).reverse.dropWhile isJsSpace).reverse

/-- Strip a literal string from the front of `l`, returning the remainder. -/
def stripStr : Str → Str → Option Str
  | [], l => some l
  | _ :: _, [] => none
  | p :: ps, c :: cs => if c = p then stripStr ps cs else none

/-- Prepend a character to the first element of a non-empty list of lines. -/
def consHead (c : Char) : List Str → List Str
  | [] => [[c]]
  | l :: ls => (c :: l) :: ls

/-- `String.prototype.split` with a single-character literal separator. -/
def splitOnChar (sep : Char) : Str → List Str
  | [] => [[]]
  | c :: rest => if c = sep then [] :: splitOnChar sep rest else consHead c (splitOnChar sep rest)

/-- `split(/\r?\n/)`: split on line feeds, a carriage return immediately
before a line feed being consumed with it.  A carriage return not followed
by a line feed is an ordinary character. -/
def splitLinesCRLF : Str → List Str
  | [] => [[]]
  | c :: rest =>
    if c = lf then [] :: splitLinesCRLF rest
    else if c = cr then
      match rest with
      | [] => [[cr]]
      | d :: rest2 =>
        if d = lf then [] :: splitLinesCRLF rest2
        else consHead c (splitLinesCRLF (d :: rest2))
    else consHead c (splitLinesCRLF rest)

/-- `Array.prototype.join` with separator `"\n"`. -/
def joinNL : List Str → Str
  | [] => []
  | [l] => l
  | l :: ls => l ++ lf :: joinNL ls

/-- JavaScript `parseInt(s, 10)`: skip leading whitespace, an optional
sign, then the longest run of decimal digits; `none` models `NaN`. -/
def jsParseInt (s : Str) : Option Int :=
  let t := s.dropWhile isJsSpace
  match t with
  | '-' :: rest =>
    let ds := rest.takeWhile Char.isDigit
    if ds = [] then none
    else some (-(ds.foldl (fun a c => 10 * a + ((c.toNat : Int) - 48)) 0))
  | '+' :: rest =>
    let ds := rest.takeWhile Char.isDigit
    if ds = [] then none
    else some (ds.foldl (fun a c => 10 * a + ((c.toNat : Int) - 48)) 0)
  | _ =>
    let ds := t.takeWhile Char.isDigit
    if ds = [] then none
    else some (ds.foldl (fun a c => 10 * a + ((c.toNat : Int) - 48)) 0)

/-- `isNpmV7OrGreater` from `src/lib.ts`.  The argument models the outcome
of `exec("npm --version")`: `Except.error` is a rejected execution,
`Except.ok out` a captured standard output.  The source trims the output,
splits on dots, maps `parseInt` over the parts, and accepts iff the first
part is a number that is not `NaN` and is at least 7; any exception gives
`false`. -/
def isNpmV7OrGreater (execResult : Except Unit Str) : Bool :=
  match execResult with
  | .error _ => false
  | .ok out =>
    let version := jsTrim out
    let versionParts := (splitOnChar '.' version).map jsParseInt
    match versionParts.head? with
    | some (some n) => decide (7 ≤ n)
    | _ => false

/-- The leading dot-separated component of a version string (specification
vocabulary for the claim about the version gate). -/
def leadingDotComponent (s : Str) : Str :=
  s.takeWhile (fun c => !(c = '.'))

/-- A quote character for the regex `["']`. -/
def isQuoteChar (c : Char) : Bool := c = dq || c = sq

/-- The literal `"workspaces"` (with the surrounding double quotes). -/
def wsLiteral : Str := dq :: ('w' :: 'o' :: 'r' :: 'k' :: 's' :: 'p' :: 'a' :: 'c' :: 'e' :: 's' :: [dq])

/-- Consume one expected character, returning the remainder. -/
def expectChar (c : Char) : Str → Option Str
  | d :: rest => if d = c then some rest else none
  | [] => none

/-- Try to match `"workspaces"\s*:\s*\[` at the head of `l`, returning the
text after the opening bracket: the literal `"workspaces"` (consumed by
`stripStr`), optional whitespace, `:`, optional whitespace, `[`. -/
def matchHeaderAt (l : Str) : Option Str :=
  (stripStr wsLiteral l).bind (fun r1 =>
    (expectChar ':' (r1.dropWhile isJsSpace)).bind (fun r2 =>
      expectChar '[' (r2.dropWhile isJsSpace)))

/-- First match of `/"workspaces"\s*:\s*\[\s*([^\]]*)\s*\]/` in the text:
scan left to right; where the header matches, the whole regex matches iff
a closing bracket follows, and the capture is the bracket contents with
leading whitespace removed (the leading `\s*` is greedy, and the greedy
`[^\]]*` leaves nothing for the trailing `\s*`). -/
def firstWorkspacesCapture : Str → Option Str
  | [] => none
  | c :: rest =>
    match matchHeaderAt (c :: rest) with
    | some after =>
      let afterWs := after.dropWhile isJsSpace
      if ']' ∈ afterWs then some (afterWs.takeWhile (fun ch => !(ch = ']')))
      else firstWorkspacesCapture rest
    | none => firstWorkspacesCapture rest

/-- Scanner for the global regex `/["']([^"']+)["']/g` followed by the
quote-stripping `replace`: emit the contents of every maximal quoted run.
`acc` is `some run` (reversed) while inside a candidate run opened by a
quote, `none` while searching for an opening quote. -/
def extractQuotedGo : Option Str → Str → List Str
  | none, [] => []
  | none, c :: r => if isQuoteChar c then extractQuotedGo (some []) r else extractQuotedGo none r
  | some _, [] => []
  | some acc, c :: r =>
    if isQuoteChar c then
      if acc = [] then extractQuotedGo (some []) r
      else acc.reverse :: extractQuotedGo none r
    else extractQuotedGo (some (c :: acc)) r

/-- All quoted string literals found by `/["']([^"']+)["']/g`, quotes
stripped. -/
def extractQuoted (s : Str) : List Str := extractQuotedGo none s

/-- `getWorkspaces` from `src/lib.ts`.  The argument models the outcome of
reading the manifest file: `none` is any read failure (including a missing
file), `some content` its raw text.  The source regex-matches the
workspaces property and extracts the quoted strings inside the brackets;
an empty capture or no quoted strings give the empty list. -/
def getWorkspaces (file : Option Str) : List Str :=
  match file with
  | none => []
  | some content =>
    match firstWorkspacesCapture content with
    | some cap => if cap ≠ [] then extractQuoted cap else []
    | none => []

/-- Canonical rendering of the inside of a well-formed `"workspaces"`
array: double-quoted globs separated by a comma and a space. -/
def renderGlobList : List Str → Str
  | [] => []
  | [g] => dq :: g ++ [dq]
  | g :: gs => dq :: g ++ dq :: ',' :: ' ' :: renderGlobList gs

/-- Canonical rendering of a well-formed `"workspaces": [...]` property. -/
def renderWorkspaces (globs : List Str) : Str :=
  wsLiteral ++ ':' :: ' ' :: '[' :: renderGlobList globs ++ [']']

/-- A glob string that a well-formed workspaces array may contain:
non-empty, no quote characters, no closing bracket. -/
def goodGlob (g : Str) : Bool :=
  !g.isEmpty && g.all (fun c => !isQuoteChar c && !(c = ']'))

/-- Match the core of ``new RegExp(`package-lock\\.json\\smerge\\s*=\\s*NAME$`)``
at the head of `l`: the literal `package-lock.json`, one whitespace
character, the literal `merge`, optional whitespace, `=`, optional
whitespace, then exactly the driver name running to the end of the line.
The driver name is treated as a literal (it is a slug in the CLI). -/
def matchAssocCoreAt (name l : Str) : Bool :=
  match stripStr "package-lock.json".toList l with
  | none => false
  | some r1 =>
    match r1 with
    | [] => false
    | w :: r2 =>
      isJsSpace w &&
        (match stripStr "merge".toList r2 with
         | none => false
         | some r3 =>
           match r3.dropWhile isJsSpace with
           | '=' :: r5 => decide (r5.dropWhile isJsSpace = name)
           | _ => false)

/-- The unanchored regex test `line.match(RE)`: the core pattern may start
at any position but must end at the end of the line. -/
def matchesAssocRE (name : Str) : Str → Bool
  | [] => matchAssocCoreAt name []
  | c :: r => matchAssocCoreAt name (c :: r) || matchesAssocRE name r

/-- The association line appended by `updateGitAttributes`. -/
def assocLine (name : Str) : Str :=
  "package-lock.json merge=".toList ++ name ++ [lf]

/-- The test `attrContents.match(/[\n\r]$/g)`: the last character is a
line feed or carriage return. -/
def endsWithNLCR (s : Str) : Bool :=
  match s.getLast? with
  | some c => c = lf || c = cr
  | none => false

/-- `updateGitAttributes` from `src/lib.ts`, as the content written back.
The argument models the outcome of reading the attributes file (`none` is
`ENOENT`, treated as empty content).  The source splits on `/\r?\n/`,
drops the lines matching the driver association regex, rejoins with
`"\n"`, then — when the result is non-empty and does not end in a newline
character — **assigns** `"\n"` to it (discarding the filtered content;
this is the source text at `src/lib.ts:117-119`), and finally appends the
association line. -/
def updateGitAttributes (name : Str) (prior : Option Str) : Str :=
  let attr0 : Str :=
    match prior with
    | none => []
    | some content =>
      joinNL ((splitLinesCRLF content).filter (fun l => !matchesAssocRE name l))
  let attr1 : Str := if !attr0.isEmpty && !endsWithNLCR attr0 then [lf] else attr0
  attr1 ++ assocLine name

/-- A valid driver name as produced by the CLI (`slug(SCRIPT_NAME)`):
non-empty, lowercase alphanumerics and hyphens. -/
def validDriverName (name : Str) : Bool :=
  !name.isEmpty && name.all (fun c => c.isLower || c.isDigit || c = '-')

/-- Every carriage return in the string is immediately followed by a line
feed. -/
def noBareCR : Str → Bool
  | [] => true
  | c :: rest =>
    if c = cr then
      match rest with
      | [] => false
      | d :: r2 => d = lf && noBareCR r2
    else noBareCR rest

/-- JavaScript `.` (no `s` flag): any character except the four line
terminators. -/
def dotChar (c : Char) : Bool :=
  !(c = lf || c = cr || c = Char.ofNat 0x2028 || c = Char.ofNat 0x2029)

/-- Case-insensitive match of a lowercase literal at the head of `l`,
returning the remainder. -/
def stripStrCI : Str → Str → Option Str
  | [], l => some l
  | _ :: _, [] => none
  | p :: ps, c :: cs => if c.toLower = p then stripStrCI ps cs else none

/-- First viable match of `/\smerge=(.*)$/i` in a line: a whitespace
character, the (case-insensitive) literal `merge=`, then a capture running
to the end of the line over characters `.` can match.  If the tail holds a
character `.` cannot match, the engine fails at this position and keeps
scanning. -/
def findMergeCapture : Str → Option Str
  | [] => none
  | c :: rest =>
    match (if isJsSpace c then stripStrCI "merge=".toList rest else none) with
    | some cap => if cap.all dotChar then some cap else findMergeCapture rest
    | none => findMergeCapture rest

/-- The keep-test of the `reduce` in `uninstall`: keep a line iff the
regex does not match, or the capture is non-empty and its trim differs
from the driver name. -/
def keepAttrLine (name line : Str) : Bool :=
  match findMergeCapture line with
  | none => true
  | some cap => !cap.isEmpty && decide (jsTrim cap ≠ name)

/-- The `reduce` in `uninstall`: concatenate every kept line followed by a
line feed. -/
def attrsReduce (name : Str) (lines : List Str) : Str :=
  lines.foldl (fun acc l => if keepAttrLine name l then acc ++ l ++ [lf] else acc) []

/-- The filtered attributes content `newAttrs` computed by `uninstall`
from the raw file content (which it splits on `"\n"`). -/
def newAttrsOf (name content : Str) : Str :=
  attrsReduce name (splitOnChar lf content)

/-- One value of the parsed `git config --show-origin --list --includes`
output: the config file it came from and the value. -/
structure ConfigEntry where
  filepath : Str
  value : Str
  deriving DecidableEq

/-- A parsed Git config listing: dotted keys mapped to their entry.  The
source builds a plain object keyed by the dotted name. -/
abbrev GitConfig := List (Str × ConfigEntry)

/-- Key lookup in a parsed config listing. -/
def lookupCfg (cfg : GitConfig) (k : Str) : Option ConfigEntry :=
  (cfg.find? (fun e => decide (e.1 = k))).map (fun e => e.2)

/-- The key `core.attributesfile`. -/
def coreAttributesKey : Str := "core.attributesfile".toList

/-- The key `merge.<name>.driver`. -/
def driverKey (name : Str) : Str := "merge.".toList ++ name ++ ".driver".toList

/-- The key `merge.<name>.created`. -/
def createdKey (name : Str) : Str := "merge.".toList ++ name ++ ".created".toList

/-- An external mutation performed through `git config set`, `fs`, or the
section-removal command. -/
inductive Mutation where
  | setCoreAttributesFile (localScope : Bool) (p : Str)
  | setCreated (localScope : Bool) (name : Str) (source : Str)
  | setDriverName (localScope : Bool) (name : Str)
  | setDriverCommand (localScope : Bool) (name : Str) (cmd : Str)
  | removeSection (sourceFile : Str) (name : Str)
  | makeDir (p : Str)
  | writeAttrs (p : Str) (content : Str)
  | deleteAttrs (p : Str)
  deriving DecidableEq

/-- Outcome of `git config --remove-section`. -/
inductive RemoveSectionOutcome where
  | ok
  | noSuchSection
  | fail
  deriving DecidableEq

/-- Outcome of `fs.unlink`. -/
inductive UnlinkOutcome where
  | ok
  | enoent
  | fail
  deriving DecidableEq

/-- The external state consulted by `install`/`uninstall`: the scoped
config listings (each re-read is modelled by the corresponding field), the
listing re-read inside `setAttributesFilepath` after its write, the paths
reported by `git rev-parse --git-dir` and the environment variables, the
attributes-file contents on disk by path (`none` is `ENOENT`), and the
outcomes of the fallible external commands. -/
structure Env where
  globalConfig : GitConfig
  localConfig : GitConfig
  configAfterSet : GitConfig
  gitDir : Str
  xdgConfigHome : Option Str
  home : Str
  attrsFile : Str → Option Str
  removeSectionResult : RemoveSectionOutcome
  unlinkResult : UnlinkOutcome

/-- `getAttributesFilepathFromConfig` from `src/lib.ts`: the
`core.attributesfile` entry when present with a truthy value, as
`(value, source filepath)`. -/
def getAttributesFilepathFromConfig (cfg : GitConfig) : Option (Str × Str) :=
  match lookupCfg cfg coreAttributesKey with
  | some e => if e.value ≠ [] then some (e.value, e.filepath) else none
  | none => none

/-- `replace(/^\s*~\//, home + "/")`: a leading (possibly
whitespace-prefixed) `~/` is replaced by the home directory. -/
def expandTilde (home p : Str) : Str :=
  match p.dropWhile isJsSpace with
  | '~' :: '/' :: rest => home ++ '/' :: rest
  | _ => p

/-- A naive `path.dirname`: the path up to the last separator. -/
def dirnameStr (p : Str) : Str :=
  let r := p.reverse.dropWhile (fun c => !(c = '/'))
  match r with
  | [] => ['.']
  | ['/'] => ['/']
  | _ :: r2 => r2.reverse

/-- `setAttributesFilepath` from `src/lib.ts`: write `core.attributesfile`,
re-read the scoped config (`configAfterSet`), and confirm the value
round-trips with a truthy source file; only then write the
`merge.<name>.created` provenance key pointing at that source.  A failed
confirmation throws after the first write. -/
def setAttributesFilepath (filepath name : Str) (localScope : Bool)
    (configAfterSet : GitConfig) : Except Unit (Str × Str) × List Mutation :=
  let muts0 := [Mutation.setCoreAttributesFile localScope filepath]
  match getAttributesFilepathFromConfig configAfterSet with
  | some (v, src) =>
    if v = filepath ∧ src ≠ [] then
      (.ok (v, src), muts0 ++ [Mutation.setCreated localScope name src])
    else (.error (), muts0)
  | none => (.error (), muts0)

/-- `findGitAttributes` from `src/lib.ts` with a boolean scope argument:
use the scoped config's `core.attributesfile` if present, otherwise fall
back to the conventional path (`<git-dir>/info/attributes` locally;
`$XDG_CONFIG_HOME/git/attributes` or `~/.config/git/attributes` globally)
and persist it with `setAttributesFilepath`.  The returned path has a
leading `~/` expanded. -/
def findGitAttributesScoped (name : Str) (localScope : Bool) (env : Env) :
    Except Unit (Str × Option Str) × List Mutation :=
  if localScope then
    match getAttributesFilepathFromConfig env.localConfig with
    | some (v, src) => (.ok (expandTilde env.home v, some src), [])
    | none =>
      let p := env.gitDir ++ "/info/attributes".toList
      match setAttributesFilepath p name true env.configAfterSet with
      | (.ok (_, src), muts) => (.ok (expandTilde env.home p, some src), muts)
      | (.error e, muts) => (.error e, muts)
  else
    match getAttributesFilepathFromConfig env.globalConfig with
    | some (v, src) => (.ok (expandTilde env.home v, some src), [])
    | none =>
      let p :=
        match env.xdgConfigHome with
        | some x => x ++ "/git/attributes".toList
        | none => env.home ++ "/.config/git/attributes".toList
      match setAttributesFilepath p name false env.configAfterSet with
      | (.ok (_, src), muts) => (.ok (expandTilde env.home p, some src), muts)
      | (.error e, muts) => (.error e, muts)

/-- `findGitAttributes` from `src/lib.ts` with a config snapshot argument
(the overload `uninstall` uses): use the snapshot's `core.attributesfile`
if present; otherwise `local` stays `false` and the global flow of
`findGitAttributesScoped` runs. -/
def findGitAttributesFromConfig (name : Str) (cfg : GitConfig) (env : Env) :
    Except Unit (Str × Option Str) × List Mutation :=
  match getAttributesFilepathFromConfig cfg with
  | some (v, src) => (.ok (expandTilde env.home v, some src), [])
  | none => findGitAttributesScoped name false env

/-- `findInstalled` from `src/lib.ts`: from the scoped config listing,
the source file of `merge.<name>.driver` (if the entry is present with a
truthy filepath) and the value of `merge.<name>.created` (if present and
truthy), together with the listing itself. -/
def findInstalled (name : Str) (localScope : Bool) (env : Env) :
    Option Str × Option Str × GitConfig :=
  let cfg := if localScope then env.localConfig else env.globalConfig
  match lookupCfg cfg (driverKey name) with
  | some e =>
    if e.filepath ≠ [] then
      match lookupCfg cfg (createdKey name) with
      | some c =>
        if c.value ≠ [] then (some e.filepath, some c.value, cfg)
        else (some e.filepath, none, cfg)
      | none => (some e.filepath, none, cfg)
    else (none, none, cfg)
  | none => (none, none, cfg)

/-- The attributes-file phase of `uninstall` (`src/lib.ts:460-513`) for an
existing file: compute `newAttrs`; delete the file when provenance is held
and the trimmed result is empty (an `ENOENT` from the delete is swallowed
without setting the flag), otherwise write the filtered content back.  The
boolean is this phase's contribution to `didUninstall`. -/
def uninstallAttrs (name : Str) (created : Bool) (content : Str)
    (unlink : UnlinkOutcome) (p : Str) : Except Unit Bool × List Mutation :=
  let newAttrs := newAttrsOf name content
  let shouldDelete := created && (jsTrim newAttrs).isEmpty
  if shouldDelete then
    match unlink with
    | .ok => (.ok true, [Mutation.deleteAttrs p])
    | .enoent => (.ok false, [])
    | .fail => (.error (), [])
  else (.ok true, [Mutation.writeAttrs p newAttrs])

/-- The attributes-file phase of `uninstall` including the read: a missing
file means nothing to uninstall in this phase. -/
def uninstallAttrsPhase (name : Str) (created : Bool) (p : Str) (env : Env) :
    Except Unit Bool × List Mutation :=
  match env.attrsFile p with
  | none => (.ok false, [])
  | some content => uninstallAttrs name created content env.unlinkResult p

/-- `uninstall` from `src/lib.ts`: find the driver's config entry (absence
returns `false` with nothing done); remove its config section (a
`no such section` failure is tolerated); resolve the attributes file from
the `created` provenance value or `findGitAttributes`; then run the
attributes-file phase.  Returns `didUninstall` and the mutations
performed. -/
def uninstall (name : Str) (localScope : Bool) (env : Env) :
    Except Unit Bool × List Mutation :=
  match findInstalled name localScope env with
  | (none, _, _) => (.ok false, [])
  | (some driverSource, createdPath, cfg) =>
    match env.removeSectionResult with
    | .fail => (.error (), [])
    | r =>
      let b0 := decide (r = RemoveSectionOutcome.ok)
      let muts0 := if b0 then [Mutation.removeSection driverSource name] else []
      match createdPath with
      | some p =>
        match uninstallAttrsPhase name true p env with
        | (.ok b1, muts1) => (.ok (b0 || b1), muts0 ++ muts1)
        | (.error e, muts1) => (.error e, muts0 ++ muts1)
      | none =>
        match findGitAttributesFromConfig name cfg env with
        | (.error e, muts1) => (.error e, muts0 ++ muts1)
        | (.ok (p, _), muts1) =>
          match uninstallAttrsPhase name false p env with
          | (.ok b1, muts2) => (.ok (b0 || b1), muts0 ++ muts1 ++ muts2)
          | (.error e, muts2) => (.error e, muts0 ++ muts1 ++ muts2)

/-- The default driver invocation command. -/
def defaultDriverCommand : Str :=
  "npx package-lock-merge-driver merge %A %O %B %P".toList

/-- `install` from `src/lib.ts`: resolve the attributes file (persisting a
fallback), then write the driver's `name` and `driver` config keys, create
the attributes directory, and rewrite the attributes file through
`updateGitAttributes`.  A falsy custom command falls back to the default
(`command || ...`). -/
def install (name : Str) (command : Option Str) (localScope : Bool) (env : Env) :
    Except Unit (Str × Option Str) × List Mutation :=
  let driverCommand :=
    match command with
    | some c => if c ≠ [] then c else defaultDriverCommand
    | none => defaultDriverCommand
  match findGitAttributesScoped name localScope env with
  | (.error e, muts) => (.error e, muts)
  | (.ok (p, src), muts) =>
    let content := updateGitAttributes name (env.attrsFile p)
    (.ok (p, src),
      muts ++
        [Mutation.setDriverName localScope name,
         Mutation.setDriverCommand localScope name driverCommand,
         Mutation.makeDir (dirnameStr p),
         Mutation.writeAttrs p content])

/-- An external effect performed by `merge`. -/
inductive MergeEffect where
  | writeFile (p : Str) (content : Str)
  | trashed (p : Str)
  | runInstallAndLs (cwd : Str)
  deriving DecidableEq

/-- The external state consulted by `merge`: the stdout of
`git merge-file -p` (which never fails the operation by itself), the raw
content of the `package.json` next to the merged lockfile (`none` is any
read failure), whether each `trash(...)` call resolves, and whether
`npm install && npm ls` exits cleanly in the workspace root. -/
structure MergeEnv where
  mergedOutput : Str
  manifest : Option Str
  rootTrashOk : Bool
  wsTrashOk : Str → Bool
  installAndLsOk : Bool

/-- `merge` from `src/lib.ts`: write the three-way merge output to the
lockfile path, extract workspace globs from the colocated manifest, then
move the workspace root's `node_modules` and each workspace's
`node_modules` to the trash and reinstall.  The root move carries `catch`
handlers (its failure is logged and swallowed); the per-workspace moves
carry none, so any rejection there rejects the joining `Promise.all` and
the whole `merge` call before the reinstall runs.  On a completed trash
phase the result is the reinstall command's success. -/
def merge (filepath : Str) (env : MergeEnv) : Except Unit Bool × List MergeEffect :=
  let workspaceRoot := dirnameStr filepath
  let workspaces := getWorkspaces env.manifest
  let workspaceNodeModulesDirs :=
    workspaces.map (fun g => workspaceRoot ++ '/' :: g ++ "/node_modules".toList)
  let workspaceRootNodeModules := workspaceRoot ++ "/node_modules".toList
  let effects0 := [MergeEffect.writeFile filepath env.mergedOutput]
  let rootEff := if env.rootTrashOk then [MergeEffect.trashed workspaceRootNodeModules] else []
  let wsEffs := (workspaceNodeModulesDirs.filter env.wsTrashOk).map MergeEffect.trashed
  if workspaceNodeModulesDirs.all env.wsTrashOk then
    (.ok env.installAndLsOk,
      effects0 ++ rootEff ++ wsEffs ++ [MergeEffect.runInstallAndLs workspaceRoot])
  else (.error (), effects0 ++ rootEff ++ wsEffs)

/-- `findLockfile` from `src/lib.ts`.  A directory is modelled as its
component list from the filesystem root; `hasLockfile d` models a
successful `fs.access` of `package-lock.json` in `d`.  The loop checks the
current directory, computes the parent, and throws (`none`) once the
parent equals the current directory; stepping to the parent drops the last
component, so the walk terminates because the component list strictly
shortens. -/
def findLockfile (hasLockfile : List Str → Bool) (dir : List Str) : Option (List Str) :=
  if hasLockfile dir then some (dir ++ ["package-lock.json".toList])
  else if h : dir.dropLast = dir then none
  else findLockfile hasLockfile dir.dropLast
  termination_by dir.length
  decreasing_by
    cases dir with
    | nil => simp at h
    | cons a l => simp [List.length_dropLast]

/-- The chain of directories `findLockfile` visits: the start directory
and every ancestor up to the root. -/
def ancestorChain (dir : List Str) : List (List Str) :=
  if h : dir.dropLast = dir then [dir]
  else dir :: ancestorChain dir.dropLast
  termination_by dir.length
  decreasing_by
    cases dir with
    | nil => simp at h
    | cons a l => simp [List.length_dropLast]

/-! Concrete environments used to evaluate the models at specific
external states. -/

/-- The conventional global attributes path under `/home/u`. -/
def fallbackAttrsPath : Str := "/home/u/.config/git/attributes".toList

/-- A global install where no `core.attributesfile` is configured but the
conventional fallback file already exists on disk with user content. -/
def envPreexisting : Env where
  globalConfig := []
  localConfig := []
  configAfterSet := [(coreAttributesKey, ⟨"/home/u/.gitconfig".toList, fallbackAttrsPath⟩)]
  gitDir := "/repo/.git".toList
  xdgConfigHome := none
  home := "/home/u".toList
  attrsFile := fun p => if p = fallbackAttrsPath then some "user-stuff\n".toList else none
  removeSectionResult := .ok
  unlinkResult := .ok

/-- A global uninstall of an installed driver whose config section has
already vanished (`no such section`) and whose recorded attributes file
holds only unrelated content. -/
def envNoRemoval : Env where
  globalConfig :=
    [(driverKey ['d'], ⟨"/g".toList, "cmd".toList⟩),
     (createdKey ['d'], ⟨"/g".toList, "/attrs".toList⟩)]
  localConfig := []
  configAfterSet := []
  gitDir := "/repo/.git".toList
  xdgConfigHome := none
  home := "/home/u".toList
  attrsFile := fun p => if p = "/attrs".toList then some "foo\n".toList else none
  removeSectionResult := .noSuchSection
  unlinkResult := .ok

/-- Like `envNoRemoval` but the driver is absent from the scoped config. -/
def envDriverAbsent : Env := { envNoRemoval with globalConfig := [] }

/-- Like `envNoRemoval` but the attributes file holds a single space. -/
def envWhitespaceAttrs : Env :=
  { envNoRemoval with
      attrsFile := fun p => if p = "/attrs".toList then some [' '] else none }

/-- A merge in `/repo` whose conflicted manifest declares one workspace,
and whose workspace `node_modules` cannot be moved to the trash. -/
def envWsTrashFails : MergeEnv where
  mergedOutput := "merged".toList
  manifest :=
    some "<<<<<<< a\nx\n=======\ny\n>>>>>>> b\n\"workspaces\": [\"packages/a\"]\n".toList
  rootTrashOk := true
  wsTrashOk := fun _ => false
  installAndLsOk := true

/-- Like `envWsTrashFails` but only the root `node_modules` move fails. -/
def envRootTrashFails : MergeEnv :=
  { envWsTrashFails with rootTrashOk := false, wsTrashOk := fun _ => true }

/-- Whether an `Except` result is a success. -/
def exceptOk {α : Type} : Except Unit α → Bool
  | .ok _ => true
  | .error _ => false

/-- Mutations that remove the driver's config section or rewrite/delete
the attributes file (the operations `uninstall`'s boolean reports). -/
def removalOrFileMutation : Mutation → Bool
  | .removeSection _ _ => true
  | .writeAttrs _ _ => true
  | .deleteAttrs _ => true
  | _ => false

end PLMD

namespace PLMD

/-! ## Theorems -/

/-- Claim C3: the claim states that `addAssociation` preserves every
pre-existing non-matching line verbatim, ensuring the remaining content
ends with a newline before appending.  The code instead **assigns**
`"\n"` to the filtered content whenever it is non-empty without a trailing
newline (`attrContents = '\n'` at `src/lib.ts:118`), so a pre-existing
file `"foo"` (no trailing newline) is reduced to a lone newline plus the
association line: the line `foo` is not preserved — no `f` survives. -/
theorem updateGitAttributes_drops_preexisting_content :
    updateGitAttributes ['d'] (some "foo".toList) = "\npackage-lock.json merge=d\n".toList ∧
      'f' ∉ updateGitAttributes ['d'] (some "foo".toList) := by
  decide

/-- Claim C1: the claim states `merge.<name>.created` is set only when the
tool itself created the attributes file.  Evaluating `install` in an
environment where no `core.attributesfile` is configured but the
conventional fallback file already exists on disk with user content: the
file is merely appended to (its content survives in the written result),
yet the `created` provenance key is still written. -/
theorem install_sets_created_despite_preexisting_file :
    envPreexisting.attrsFile fallbackAttrsPath = some "user-stuff\n".toList ∧
      install ['d'] none false envPreexisting =
        (.ok (fallbackAttrsPath, some "/home/u/.gitconfig".toList),
          [Mutation.setCoreAttributesFile false fallbackAttrsPath,
           Mutation.setCreated false ['d'] "/home/u/.gitconfig".toList,
           Mutation.setDriverName false ['d'],
           Mutation.setDriverCommand false ['d'] defaultDriverCommand,
           Mutation.makeDir "/home/u/.config/git".toList,
           Mutation.writeAttrs fallbackAttrsPath
             ("user-stuff\n".toList ++ assocLine ['d'])]) :=
  ⟨rfl, rfl⟩

/-- Claim C4: the claim states that failure of any individual trash move
is non-fatal and the operation still reaches the reinstall step.  The root
move's failure is indeed swallowed, but a workspace move carries no
rejection handler: with one workspace whose move fails, `merge` rejects
and no reinstall effect is produced; with only the root move failing, it
proceeds to the reinstall. -/
theorem merge_rejects_on_workspace_trash_failure :
    merge "/repo/package-lock.json".toList envWsTrashFails =
        (.error (),
          [MergeEffect.writeFile "/repo/package-lock.json".toList "merged".toList,
           MergeEffect.trashed "/repo/node_modules".toList]) ∧
      merge "/repo/package-lock.json".toList envRootTrashFails =
        (.ok true,
          [MergeEffect.writeFile "/repo/package-lock.json".toList "merged".toList,
           MergeEffect.trashed "/repo/packages/a/node_modules".toList,
           MergeEffect.runInstallAndLs "/repo".toList]) :=
  ⟨rfl, rfl⟩

/-- Claim C2, counterexample to the claim as stated: an attributes file
holding a single space has non-empty filtered content (`" \n"`), yet with
provenance held the delete branch is reached, because the code tests the
*trimmed* content. -/
theorem uninstall_deletes_whitespace_only_attrs_file :
    newAttrsOf ['d'] [' '] ≠ [] ∧
      uninstall ['d'] false envWhitespaceAttrs =
        (.ok true, [Mutation.deleteAttrs "/attrs".toList]) :=
  ⟨by decide, rfl⟩

/-- Claim C5, counterexample to the claim as stated: the config section
removal reports `no such section` (nothing removed there) and the
attributes file holds no association line (every line is kept by the
filter), yet `uninstall` rewrites the file and returns `true`. -/
theorem uninstall_returns_true_without_removal :
    uninstall ['d'] false envNoRemoval =
        (.ok true, [Mutation.writeAttrs "/attrs".toList "foo\n\n".toList]) ∧
      (splitOnChar lf "foo\n".toList).all (keepAttrLine ['d']) = true :=
  ⟨rfl, rfl⟩

/-- Claim C6, counterexample to the claim as stated: for prior content
`"a\r"` (a bare carriage return, which the trailing-newline regex
`/[\n\r]$/` accepts), the association line is appended without a
separating newline, gluing it to the last line; the second call removes
that glued line, so the content after the second call differs from the
content after the first. -/
theorem updateGitAttributes_not_idempotent_on_bare_cr :
    updateGitAttributes ['d'] (some (updateGitAttributes ['d'] (some "a\r".toList))) ≠
      updateGitAttributes ['d'] (some "a\r".toList) := by
  decide

theorem splitOnChar_ne_nil (sep : Char) (s : Str) : splitOnChar sep s ≠ [] := by
  induction s with
  | nil => simp [splitOnChar]
  | cons c rest ih =>
    simp only [splitOnChar]
    split
    · simp
    · cases hr : splitOnChar sep rest with
      | nil => exact absurd hr ih
      | cons a as => simp [consHead]

theorem head?_splitOnChar (sep : Char) (s : Str) :
    (splitOnChar sep s).head? = some (s.takeWhile (fun c => !(c = sep))) := by
  induction s with
  | nil => simp [splitOnChar, List.takeWhile]
  | cons c rest ih =>
    simp only [splitOnChar, List.takeWhile]
    by_cases hc : c = sep
    · simp [hc]
    · simp only [hc, if_neg, decide_eq_true_eq]
      cases hr : splitOnChar sep rest with
      | nil => exact absurd hr (splitOnChar_ne_nil sep rest)
      | cons a as =>
        rw [hr] at ih
        simp only [List.head?] at ih
        simp only [consHead, List.head?, hc, decide_eq_true_eq, if_neg]
        simp only [Option.some.injEq] at ih ⊢
        simp [ih]

/-- Claim C7: the version gate returns `true` iff the leading
dot-separated component of the trimmed reported version parses (via
`parseInt`) to an integer of at least 7; it is a total function of the
execution outcome — any execution failure or non-numeric output yields
`false` — and on `"6.9.9"`, `"7.0.0"` and `"abc"` it yields `false`,
`true` and `false` respectively. -/
theorem isNpmV7OrGreater_spec :
    (∀ r, isNpmV7OrGreater r = true ↔
       ∃ out, r = .ok out ∧
         ∃ n, jsParseInt (leadingDotComponent (jsTrim out)) = some n ∧ 7 ≤ n) ∧
      isNpmV7OrGreater (.ok "6.9.9".toList) = false ∧
      isNpmV7OrGreater (.ok "7.0.0".toList) = true ∧
      isNpmV7OrGreater (.ok "abc".toList) = false ∧
      (∀ e, isNpmV7OrGreater (.error e) = false) := by
  refine ⟨?_, by decide, by decide, by decide, fun e => rfl⟩
  intro r
  cases r with
  | error e => simp [isNpmV7OrGreater]
  | ok out =>
    have hsplit : ((splitOnChar '.' (jsTrim out)).map jsParseInt).head? =
        some (jsParseInt (leadingDotComponent (jsTrim out))) := by
      rw [List.head?_map, head?_splitOnChar]
      rfl
    simp only [isNpmV7OrGreater, hsplit]
    cases hj : jsParseInt (leadingDotComponent (jsTrim out)) with
    | none => simp [hj]
    | some n => simp [hj]

theorem isNpmV7OrGreater_spec_witness :
    isNpmV7OrGreater (.ok "10.8.2\n".toList) = true :=
  (isNpmV7OrGreater_spec.1 _).mpr ⟨"10.8.2\n".toList, rfl, 10, by decide, by decide⟩

/-- Claim C8: persisting a fallback attributes path succeeds iff the
re-read `core.attributesfile` entry carries exactly the written path with
a non-empty source file; on success the mutations are the config write
followed by the `created` provenance write pointing at the confirmed
source, and on failure (the thrown error) only the config write has
happened — `created` is never written. -/
theorem setAttributesFilepath_roundtrip :
    ∀ (p name : Str) (localScope : Bool) (cfg : GitConfig), p ≠ [] →
      (exceptOk (setAttributesFilepath p name localScope cfg).1 = true ↔
         ∃ e, lookupCfg cfg coreAttributesKey = some e ∧ e.value = p ∧ e.filepath ≠ []) ∧
      (∀ v src, (setAttributesFilepath p name localScope cfg).1 = .ok (v, src) →
         v = p ∧
           (setAttributesFilepath p name localScope cfg).2 =
             [Mutation.setCoreAttributesFile localScope p,
              Mutation.setCreated localScope name src] ∧
           ∃ e, lookupCfg cfg coreAttributesKey = some e ∧ e.filepath = src) ∧
      (exceptOk (setAttributesFilepath p name localScope cfg).1 = false →
         (setAttributesFilepath p name localScope cfg).2 =
           [Mutation.setCoreAttributesFile localScope p]) := by
  intro p name localScope cfg hp
  simp only [setAttributesFilepath, getAttributesFilepathFromConfig]
  cases hl : lookupCfg cfg coreAttributesKey with
  | none =>
    refine ⟨by simp [exceptOk], ?_, by simp⟩
    intro v src h
    simp [exceptOk] at h
  | some e =>
    by_cases hv : e.value ≠ []
    · simp only [if_pos hv]
      by_cases hc : e.value = p ∧ e.filepath ≠ []
      · simp only [if_pos hc]
        refine ⟨by simp [exceptOk, hc.1, hc.2], ?_, by simp [exceptOk]⟩
        intro v src h
        simp only [Except.ok.injEq, Prod.mk.injEq] at h
        exact ⟨h.1.symm.trans hc.1, by simp [h.2], e, rfl, h.2⟩
      · simp only [if_neg hc]
        refine ⟨?_, ?_, by simp⟩
        · simp only [exceptOk, Bool.false_eq_true, false_iff]
          rintro ⟨e2, he2, hvp, hsrc⟩
          have he : e = e2 := by injection he2
          subst he
          exact hc ⟨hvp, hsrc⟩
        · intro v src h
          simp [exceptOk] at h
    · simp only [if_neg hv]
      push_neg at hv
      refine ⟨?_, ?_, by simp⟩
      · simp only [exceptOk, Bool.false_eq_true, false_iff]
        rintro ⟨e2, he2, hvp, _⟩
        have he : e = e2 := by injection he2
        subst he
        exact hp (hvp.symm.trans hv)
      · intro v src h
        simp [exceptOk] at h

theorem setAttributesFilepath_roundtrip_witness :
    (([] : Str) ≠ "/a".toList) ∧
      (exceptOk (setAttributesFilepath "/a".toList ['d'] false
            [(coreAttributesKey, ⟨"/g".toList, "/a".toList⟩)]).1 = true ↔
         ∃ e, lookupCfg [(coreAttributesKey, ⟨"/g".toList, "/a".toList⟩)]
             coreAttributesKey = some e ∧ e.value = "/a".toList ∧ e.filepath ≠ []) :=
  ⟨by decide,
    (setAttributesFilepath_roundtrip "/a".toList ['d'] false
        [(coreAttributesKey, ⟨"/g".toList, "/a".toList⟩)] (by decide)).1⟩

/-- Claim C10: `findLockfile` walks strictly upward (each step drops the
last path component; the throw is detected by the parent equaling the
current directory, i.e. at the root), is total on every start path, and
returns the lockfile path in the *first* directory of the ancestor chain
that has one; when no ancestor has one it returns `none` (the thrown
error). -/
theorem findLockfile_nearest_ancestor :
    ∀ (hasLockfile : List Str → Bool) (dir : List Str),
      findLockfile hasLockfile dir =
          ((ancestorChain dir).find? hasLockfile).map
            (fun d => d ++ ["package-lock.json".toList]) ∧
      ((∀ d ∈ ancestorChain dir, hasLockfile d = false) →
         findLockfile hasLockfile dir = none) := by
  intro hasLockfile dir
  have main : ∀ (n : Nat) (d : List Str), d.length ≤ n →
      findLockfile hasLockfile d =
        ((ancestorChain d).find? hasLockfile).map
          (fun x => x ++ ["package-lock.json".toList]) := by
    intro n
    induction n with
    | zero =>
      intro d hd
      have hnil : d = [] := List.length_eq_zero.mp (Nat.le_zero.mp hd)
      subst hnil
      rw [findLockfile, ancestorChain]
      cases hh : hasLockfile [] <;> simp [hh, List.find?]
    | succ n ih =>
      intro d hd
      rw [findLockfile, ancestorChain]
      cases hh : hasLockfile d with
      | true =>
        by_cases hroot : d.dropLast = d <;> simp [hh, hroot, List.find?]
      | false =>
        by_cases hroot : d.dropLast = d
        · simp [hh, hroot, List.find?]
        · have hlen : d.dropLast.length ≤ n := by
            cases d with
            | nil => simp at hroot
            | cons a l =>
              have := List.length_dropLast (a :: l)
              simp only [this]
              omega
          simp only [hh, Bool.false_eq_true, if_false, dif_neg hroot]
          rw [ih d.dropLast hlen, List.find?_cons_of_neg _ (by simp [hh])]
  refine ⟨main dir.length dir le_rfl, fun hall => ?_⟩
  rw [main dir.length dir le_rfl,
    List.find?_eq_none.mpr (fun x hx => by simp [hall x hx])]
  rfl

theorem findLockfile_nearest_ancestor_witness :
    findLockfile (fun _ => false) [['a'], ['b']] = none :=
  (findLockfile_nearest_ancestor (fun _ => false) [['a'], ['b']]).2 (fun _ _ => rfl)

theorem setAttributesFilepath_muts_config (p name : Str) (ls : Bool) (cfg : GitConfig)
    (m : Mutation) (hm : m ∈ (setAttributesFilepath p name ls cfg).2) :
    removalOrFileMutation m = false := by
  simp only [setAttributesFilepath] at hm
  split at hm
  · split at hm
    · simp only [List.mem_append, List.mem_singleton] at hm
      rcases hm with hm | hm <;> subst hm <;> rfl
    · simp only [List.mem_singleton] at hm
      subst hm
      rfl
  · simp only [List.mem_singleton] at hm
    subst hm
    rfl

theorem findGitAttributesScoped_muts (name : Str) (ls : Bool) (env : Env)
    (m : Mutation) (hm : m ∈ (findGitAttributesScoped name ls env).2) :
    removalOrFileMutation m = false := by
  simp only [findGitAttributesScoped] at hm
  split at hm
  · split at hm
    · simp at hm
    · split at hm
      next heq =>
        have h2 := congrArg Prod.snd heq
        exact setAttributesFilepath_muts_config _ _ _ _ m (h2 ▸ hm)
      next heq =>
        have h2 := congrArg Prod.snd heq
        exact setAttributesFilepath_muts_config _ _ _ _ m (h2 ▸ hm)
  · split at hm
    · simp at hm
    · split at hm
      next heq =>
        have h2 := congrArg Prod.snd heq
        exact setAttributesFilepath_muts_config _ _ _ _ m (h2 ▸ hm)
      next heq =>
        have h2 := congrArg Prod.snd heq
        exact setAttributesFilepath_muts_config _ _ _ _ m (h2 ▸ hm)

theorem findGitAttributesFromConfig_muts (name : Str) (cfg : GitConfig) (env : Env)
    (m : Mutation) (hm : m ∈ (findGitAttributesFromConfig name cfg env).2) :
    removalOrFileMutation m = false := by
  simp only [findGitAttributesFromConfig] at hm
  split at hm
  · simp at hm
  · exact findGitAttributesScoped_muts _ _ _ m hm

theorem uninstallAttrs_delete (name : Str) (created : Bool) (content : Str)
    (u : UnlinkOutcome) (p q : Str)
    (hm : Mutation.deleteAttrs q ∈ (uninstallAttrs name created content u p).2) :
    q = p ∧ jsTrim (newAttrsOf name content) = [] := by
  simp only [uninstallAttrs] at hm
  split at hm
  next hdel =>
    have hempty : (jsTrim (newAttrsOf name content)).isEmpty = true :=
      (Bool.and_eq_true _ _).mp hdel |>.2
    cases u with
    | ok =>
      simp only [List.mem_singleton, Mutation.deleteAttrs.injEq] at hm
      exact ⟨hm, List.isEmpty_iff.mp hempty⟩
    | enoent => simp at hm
    | fail => simp at hm
  next => simp at hm

theorem uninstallAttrsPhase_delete (name : Str) (created : Bool) (p : Str) (env : Env)
    (q : Str)
    (hm : Mutation.deleteAttrs q ∈ (uninstallAttrsPhase name created p env).2) :
    ∃ content, env.attrsFile q = some content ∧ jsTrim (newAttrsOf name content) = [] := by
  simp only [uninstallAttrsPhase] at hm
  split at hm
  · simp at hm
  next content hfile =>
    obtain ⟨hqp, htrim⟩ := uninstallAttrs_delete name created content env.unlinkResult p q hm
    exact ⟨content, hqp ▸ hfile, htrim⟩

/-- Claim C2 (amended: "non-empty" is "non-empty after trimming
whitespace"): whenever `uninstall` deletes an attributes file, the content
the filter produced for that file was empty or whitespace-only; an
attributes file whose filtered content retains any non-whitespace
character is never deleted, regardless of the `created` provenance
flag. -/
theorem uninstall_never_deletes_filtered_content :
    ∀ (name : Str) (localScope : Bool) (env : Env) (p : Str),
      Mutation.deleteAttrs p ∈ (uninstall name localScope env).2 →
      ∃ content, env.attrsFile p = some content ∧ jsTrim (newAttrsOf name content) = [] := by
  intro name localScope env p hm
  simp only [uninstall] at hm
  split at hm
  · simp at hm
  next driverSource createdPath cfg heqFI =>
    split at hm
    · simp at hm
    next r hnf =>
      split at hm
      next pc =>
        split at hm
        next b1 muts1 heq =>
          simp only [List.mem_append] at hm
          rcases hm with hm | hm
          · split at hm <;> simp_all
          · exact uninstallAttrsPhase_delete name true pc env p (by rw [heq]; exact hm)
        next e muts1 heq =>
          simp only [List.mem_append] at hm
          rcases hm with hm | hm
          · split at hm <;> simp_all
          · exact uninstallAttrsPhase_delete name true pc env p (by rw [heq]; exact hm)
      · split at hm
        next e muts1 heq =>
          simp only [List.mem_append] at hm
          rcases hm with hm | hm
          · split at hm <;> simp_all
          · have hf : removalOrFileMutation (Mutation.deleteAttrs p) = false :=
              findGitAttributesFromConfig_muts _ _ _ _ (by rw [heq]; exact hm)
            simp [removalOrFileMutation] at hf
        next q src muts1 heq =>
          split at hm
          next b1 muts2 heq2 =>
            simp only [List.mem_append] at hm
            rcases hm with (hm | hm) | hm
            · split at hm <;> simp_all
            · have hf : removalOrFileMutation (Mutation.deleteAttrs p) = false :=
                findGitAttributesFromConfig_muts _ _ _ _ (by rw [heq]; exact hm)
              simp [removalOrFileMutation] at hf
            · exact uninstallAttrsPhase_delete name false q env p (by rw [heq2]; exact hm)
          next e muts2 heq2 =>
            simp only [List.mem_append] at hm
            rcases hm with (hm | hm) | hm
            · split at hm <;> simp_all
            · have hf : removalOrFileMutation (Mutation.deleteAttrs p) = false :=
                findGitAttributesFromConfig_muts _ _ _ _ (by rw [heq]; exact hm)
              simp [removalOrFileMutation] at hf
            · exact uninstallAttrsPhase_delete name false q env p (by rw [heq2]; exact hm)

theorem exists_mem_append_iff {α : Type} {l1 l2 : List α} {P : α → Prop} :
    (∃ m ∈ l1 ++ l2, P m) ↔ (∃ m ∈ l1, P m) ∨ (∃ m ∈ l2, P m) := by
  simp [List.mem_append, or_and_right, exists_or]

theorem uninstallAttrsPhase_char (name : Str) (created : Bool) (p : Str) (env : Env)
    (b : Bool) (muts : List Mutation)
    (h : uninstallAttrsPhase name created p env = (.ok b, muts)) :
    b = true ↔ ∃ m ∈ muts, removalOrFileMutation m = true := by
  simp only [uninstallAttrsPhase] at h
  split at h
  · simp only [Prod.mk.injEq, Except.ok.injEq] at h
    obtain ⟨hb, hmuts⟩ := h
    subst hb
    subst hmuts
    simp
  next content hfile =>
    simp only [uninstallAttrs] at h
    split at h
    · cases hu : env.unlinkResult with
      | ok =>
        rw [hu] at h
        simp only [Prod.mk.injEq, Except.ok.injEq] at h
        obtain ⟨hb, hmuts⟩ := h
        subst hb
        subst hmuts
        simp [removalOrFileMutation]
      | enoent =>
        rw [hu] at h
        simp only [Prod.mk.injEq, Except.ok.injEq] at h
        obtain ⟨hb, hmuts⟩ := h
        subst hb
        subst hmuts
        simp
      | fail =>
        rw [hu] at h
        simp at h
    · simp only [Prod.mk.injEq, Except.ok.injEq] at h
      obtain ⟨hb, hmuts⟩ := h
      subst hb
      subst hmuts
      simp [removalOrFileMutation]

theorem exists_removal_in_section_muts (driverSource name : Str) (b0 : Bool) :
    (∃ m ∈ (if b0 then [Mutation.removeSection driverSource name] else []),
        removalOrFileMutation m = true) ↔ b0 = true := by
  cases b0 <;> simp [removalOrFileMutation]

/-- Claim C5 (amended: the write-back of a filtered attributes file counts
as "something done" even when no association line was present, and the
deletion must actually happen): `uninstall` returns `false` with no
mutations when the driver's `driver` key is absent from the scoped
configuration; and whenever it returns, the boolean is `true` iff the
mutation list holds a config-section removal, an attributes-file write, or
an attributes-file deletion. -/
theorem uninstall_boolean_contract :
    ∀ (name : Str) (localScope : Bool) (env : Env),
      ((findInstalled name localScope env).1 = none →
         uninstall name localScope env = (.ok false, [])) ∧
      (∀ b muts, uninstall name localScope env = (.ok b, muts) →
         (b = true ↔ ∃ m ∈ muts, removalOrFileMutation m = true)) := by
  intro name localScope env
  constructor
  · intro h1
    rcases hfi : findInstalled name localScope env with ⟨ds, cp, cfg⟩
    rw [hfi] at h1
    simp only at h1
    subst h1
    simp only [uninstall, hfi]
  · intro b muts h
    simp only [uninstall] at h
    split at h
    · simp only [Prod.mk.injEq, Except.ok.injEq] at h
      obtain ⟨hb, hmuts⟩ := h
      subst hb
      subst hmuts
      simp
    next driverSource createdPath cfg heqFI =>
      split at h
      · simp at h
      next r hnf =>
        split at h
        next pc =>
          split at h
          next b1 muts1 heq =>
            simp only [Prod.mk.injEq, Except.ok.injEq] at h
            obtain ⟨hb, hmuts⟩ := h
            subst hb
            subst hmuts
            rw [Bool.or_eq_true, exists_mem_append_iff,
              exists_removal_in_section_muts,
              uninstallAttrsPhase_char name true pc env b1 muts1 heq]
          next e muts1 heq => simp at h
        · split at h
          next e muts1 heq => simp at h
          next q src muts1 heq =>
            split at h
            next b1 muts2 heq2 =>
              simp only [Prod.mk.injEq, Except.ok.injEq] at h
              obtain ⟨hb, hmuts⟩ := h
              subst hb
              subst hmuts
              have hmid : ¬ ∃ m ∈ muts1, removalOrFileMutation m = true := by
                rintro ⟨m, hmem, hro⟩
                rw [findGitAttributesFromConfig_muts name cfg env m (by rw [heq]; exact hmem)]
                  at hro
                cases hro
              rw [Bool.or_eq_true, List.append_assoc, exists_mem_append_iff,
                exists_removal_in_section_muts, exists_mem_append_iff,
                uninstallAttrsPhase_char name false q env b1 muts2 heq2]
              constructor
              · rintro (h | h)
                · exact Or.inl h
                · exact Or.inr (Or.inr h)
              · rintro (h | h | h)
                · exact Or.inl h
                · exact absurd h hmid
                · exact Or.inr h
            next e muts2 heq2 => simp at h

theorem uninstall_boolean_contract_witness :
    uninstall ['d'] false envDriverAbsent = (.ok false, []) ∧
      (true = true ↔ ∃ m ∈ [Mutation.writeAttrs "/attrs".toList "foo\n\n".toList],
         removalOrFileMutation m = true) :=
  ⟨(uninstall_boolean_contract ['d'] false envDriverAbsent).1 rfl,
   (uninstall_boolean_contract ['d'] false envNoRemoval).2 true
     [Mutation.writeAttrs "/attrs".toList "foo\n\n".toList] rfl⟩

theorem uninstall_never_deletes_filtered_content_witness :
    ∃ content, envWhitespaceAttrs.attrsFile "/attrs".toList = some content ∧
      jsTrim (newAttrsOf ['d'] content) = [] :=
  uninstall_never_deletes_filtered_content ['d'] false envWhitespaceAttrs
    "/attrs".toList (by rw [show uninstall ['d'] false envWhitespaceAttrs =
      (.ok true, [Mutation.deleteAttrs "/attrs".toList]) from rfl]; simp)


theorem consHead_ne_nil (c : Char) (ls : List Str) : consHead c ls ≠ [] := by
  cases ls <;> simp [consHead]

theorem consHead_append (c : Char) (M N : List Str) (hM : M ≠ []) :
    consHead c (M ++ N) = consHead c M ++ N := by
  cases M with
  | nil => exact absurd rfl hM
  | cons m ms => simp [consHead]

theorem joinNL_consHead (c : Char) (M : List Str) (hM : M ≠ []) :
    joinNL (consHead c M) = c :: joinNL M := by
  cases M with
  | nil => exact absurd rfl hM
  | cons m ms =>
    cases ms with
    | nil => simp [consHead, joinNL]
    | cons m2 ms2 => simp [consHead, joinNL]

theorem mem_consHead {l : Str} {c : Char} {M : List Str} (h : l ∈ consHead c M) :
    (M = [] ∧ l = [c]) ∨ ∃ m ms, M = m :: ms ∧ (l = c :: m ∨ l ∈ ms) := by
  cases M with
  | nil =>
    simp [consHead] at h
    exact Or.inl ⟨rfl, h⟩
  | cons m ms =>
    simp [consHead] at h
    exact Or.inr ⟨m, ms, rfl, h⟩

theorem joinNL_cons2 (l l2 : Str) (M : List Str) :
    joinNL (l :: l2 :: M) = l ++ lf :: joinNL (l2 :: M) := rfl

theorem splitLinesCRLF_cons_lf (Y : Str) :
    splitLinesCRLF (lf :: Y) = [] :: splitLinesCRLF Y := by
  rw [splitLinesCRLF.eq_def]
  dsimp only
  rw [if_pos rfl]

theorem splitLinesCRLF_cons_other {c : Char} (Y : Str) (h1 : ¬(c = lf)) (h2 : ¬(c = cr)) :
    splitLinesCRLF (c :: Y) = consHead c (splitLinesCRLF Y) := by
  rw [splitLinesCRLF.eq_def]
  dsimp only
  rw [if_neg h1, if_neg h2]

theorem splitLinesCRLF_crlf (Y : Str) :
    splitLinesCRLF (cr :: lf :: Y) = [] :: splitLinesCRLF Y := by
  rw [splitLinesCRLF.eq_def]
  dsimp only
  rw [if_neg (by decide : ¬(cr = lf)), if_pos rfl, if_pos rfl]

theorem splitLinesCRLF_cr_nil : splitLinesCRLF [cr] = [[cr]] := by
  rw [splitLinesCRLF.eq_def]
  dsimp only
  rw [if_neg (by decide : ¬(cr = lf)), if_pos rfl]

theorem splitLinesCRLF_cr_other (d : Char) (r2 : Str) (h3 : ¬(d = lf)) :
    splitLinesCRLF (cr :: d :: r2) = consHead cr (splitLinesCRLF (d :: r2)) := by
  rw [splitLinesCRLF.eq_def]
  dsimp only
  rw [if_neg (by decide : ¬(cr = lf)), if_pos rfl, if_neg h3]

theorem splitLinesCRLF_ne_nil (s : Str) : splitLinesCRLF s ≠ [] := by
  cases s with
  | nil => simp [splitLinesCRLF.eq_1]
  | cons c rest =>
    by_cases h1 : c = lf
    · subst h1
      rw [splitLinesCRLF_cons_lf]
      simp
    · by_cases h2 : c = cr
      · subst h2
        cases rest with
        | nil =>
          rw [splitLinesCRLF_cr_nil]
          simp
        | cons d r2 =>
          by_cases h3 : d = lf
          · subst h3
            rw [splitLinesCRLF_crlf]
            simp
          · rw [splitLinesCRLF_cr_other d r2 h3]
            exact consHead_ne_nil _ _
      · rw [splitLinesCRLF_cons_other rest h1 h2]
        exact consHead_ne_nil _ _

theorem splitLinesCRLF_singleton (l : Str) (h1 : lf ∉ l) (h2 : cr ∉ l) :
    splitLinesCRLF l = [l] := by
  induction l with
  | nil => rfl
  | cons c rest ih =>
    have hc1 : ¬(c = lf) := fun h => h1 (by rw [h]; exact List.mem_cons_self _ _)
    have hc2 : ¬(c = cr) := fun h => h2 (by rw [h]; exact List.mem_cons_self _ _)
    have hr1 : lf ∉ rest := fun h => h1 (List.mem_cons_of_mem _ h)
    have hr2 : cr ∉ rest := fun h => h2 (List.mem_cons_of_mem _ h)
    rw [splitLinesCRLF_cons_other rest hc1 hc2, ih hr1 hr2]
    simp [consHead]

theorem splitLinesCRLF_append_lf (Y : Str) :
    ∀ (X : Str), cr ∉ X →
      splitLinesCRLF (X ++ lf :: Y) = splitLinesCRLF X ++ splitLinesCRLF Y := by
  intro X
  induction X with
  | nil =>
    intro _
    rw [List.nil_append, splitLinesCRLF_cons_lf]
    rfl
  | cons c X ih =>
    intro hcr
    have hccr : ¬(c = cr) := fun h => hcr (by rw [h]; exact List.mem_cons_self _ _)
    have hXcr : cr ∉ X := fun h => hcr (List.mem_cons_of_mem _ h)
    by_cases hlf : c = lf
    · subst hlf
      rw [List.cons_append, splitLinesCRLF_cons_lf, splitLinesCRLF_cons_lf, ih hXcr,
        List.cons_append]
    · rw [List.cons_append, splitLinesCRLF_cons_other _ hlf hccr,
        splitLinesCRLF_cons_other _ hlf hccr, ih hXcr,
        consHead_append _ _ _ (splitLinesCRLF_ne_nil X)]

theorem splitLinesCRLF_joinNL (M : List Str) (hM : M ≠ [])
    (hl : ∀ l ∈ M, lf ∉ l ∧ cr ∉ l) : splitLinesCRLF (joinNL M) = M := by
  induction M with
  | nil => exact absurd rfl hM
  | cons l M ih =>
    cases M with
    | nil =>
      have := hl l (List.mem_cons_self _ _)
      exact splitLinesCRLF_singleton l this.1 this.2
    | cons l2 M2 =>
      have hhead := hl l (List.mem_cons_self _ _)
      have htail : ∀ x ∈ l2 :: M2, lf ∉ x ∧ cr ∉ x :=
        fun x hx => hl x (List.mem_cons_of_mem _ hx)
      rw [joinNL_cons2, splitLinesCRLF_append_lf _ l hhead.2,
        splitLinesCRLF_singleton l hhead.1 hhead.2, ih (by simp) htail]
      rfl

theorem joinNL_splitLinesCRLF (A : Str) (hcr : cr ∉ A) :
    joinNL (splitLinesCRLF A) = A := by
  induction A with
  | nil => rfl
  | cons c rest ih =>
    have hccr : ¬(c = cr) := fun h => hcr (by rw [h]; exact List.mem_cons_self _ _)
    have hrest : cr ∉ rest := fun h => hcr (List.mem_cons_of_mem _ h)
    by_cases hlf : c = lf
    · subst hlf
      rw [splitLinesCRLF_cons_lf]
      cases hsp : splitLinesCRLF rest with
      | nil => exact absurd hsp (splitLinesCRLF_ne_nil rest)
      | cons m ms =>
        rw [joinNL_cons2, ← hsp, ih hrest]
        rfl
    · rw [splitLinesCRLF_cons_other _ hlf hccr,
        joinNL_consHead _ _ (splitLinesCRLF_ne_nil rest), ih hrest]

theorem cr_not_mem_joinNL (M : List Str) (h : ∀ l ∈ M, cr ∉ l) : cr ∉ joinNL M := by
  induction M with
  | nil => simp [joinNL]
  | cons l M ih =>
    cases M with
    | nil => exact h l (List.mem_cons_self _ _)
    | cons l2 M2 =>
      rw [joinNL_cons2]
      simp only [List.mem_append, List.mem_cons, not_or]
      exact ⟨h l (List.mem_cons_self _ _), by decide,
        ih (fun x hx => h x (List.mem_cons_of_mem _ hx))⟩

theorem joinNL_append_nil (M : List Str) (hM : M ≠ []) :
    joinNL (M ++ [[]]) = joinNL M ++ [lf] := by
  induction M with
  | nil => exact absurd rfl hM
  | cons l M ih =>
    cases M with
    | nil => rfl
    | cons l2 M2 =>
      show l ++ lf :: joinNL ((l2 :: M2) ++ [[]]) = (l ++ lf :: joinNL (l2 :: M2)) ++ [lf]
      rw [ih (by simp)]
      simp

theorem noBareCR_cons_other {c : Char} (rest : Str) (hc : ¬(c = cr)) :
    noBareCR (c :: rest) = noBareCR rest := by
  rw [noBareCR.eq_def]
  dsimp only
  rw [if_neg hc]

theorem noBareCR_cr_nil : noBareCR [cr] = false := by
  rw [noBareCR.eq_def]
  dsimp only
  rw [if_pos rfl]

theorem noBareCR_cr_cons (d : Char) (r2 : Str) :
    noBareCR (cr :: d :: r2) = (decide (d = lf) && noBareCR r2) := by
  rw [noBareCR.eq_def]
  dsimp only
  rw [if_pos rfl]

theorem noBareCR_lines :
    ∀ (n : Nat) (x : Str), x.length ≤ n → noBareCR x = true →
      ∀ l ∈ splitLinesCRLF x, lf ∉ l ∧ cr ∉ l := by
  intro n
  induction n with
  | zero =>
    intro x hx _ l hl
    have : x = [] := List.length_eq_zero.mp (Nat.le_zero.mp hx)
    subst this
    simp only [splitLinesCRLF.eq_1, List.mem_singleton] at hl
    subst hl
    simp
  | succ n ih =>
    intro x hx hno l hl
    cases x with
    | nil =>
      simp only [splitLinesCRLF.eq_1, List.mem_singleton] at hl
      subst hl
      simp
    | cons c rest =>
      by_cases hclf : c = lf
      · subst hclf
        rw [splitLinesCRLF_cons_lf] at hl
        rw [noBareCR_cons_other rest (by decide)] at hno
        rcases List.mem_cons.mp hl with hl | hl
        · subst hl
          simp
        · exact ih rest (by simpa using Nat.le_of_succ_le_succ (by simpa using hx)) hno l hl
      · by_cases hccr : c = cr
        · subst hccr
          cases rest with
          | nil => rw [noBareCR_cr_nil] at hno; cases hno
          | cons d r2 =>
            rw [noBareCR_cr_cons] at hno
            have hd : d = lf := of_decide_eq_true ((Bool.and_eq_true _ _).mp hno).1
            have hno2 : noBareCR r2 = true := ((Bool.and_eq_true _ _).mp hno).2
            subst hd
            rw [splitLinesCRLF_crlf] at hl
            rcases List.mem_cons.mp hl with hl | hl
            · subst hl
              simp
            · refine ih r2 ?_ hno2 l hl
              simp only [List.length_cons] at hx
              omega
        · rw [splitLinesCRLF_cons_other rest hclf hccr] at hl
          rw [noBareCR_cons_other rest hccr] at hno
          have htail := ih rest (by simp only [List.length_cons] at hx; omega) hno
          rcases mem_consHead hl with ⟨hM, hlc⟩ | ⟨m, ms, hM, hlc⟩
          · exact absurd hM (splitLinesCRLF_ne_nil rest)
          · rcases hlc with hlc | hlc
            · subst hlc
              have hm := htail m (by rw [hM]; exact List.mem_cons_self _ _)
              constructor
              · simp only [List.mem_cons, not_or]
                exact ⟨fun h => hclf h.symm, hm.1⟩
              · simp only [List.mem_cons, not_or]
                exact ⟨fun h => hccr h.symm, hm.2⟩
            · exact htail l (by rw [hM]; exact List.mem_cons_of_mem _ hlc)

theorem validChar_facts (c : Char)
    (h : (c.isLower || (c.isDigit || decide (c = '-'))) = true) :
    isJsSpace c = false ∧ ¬(c = lf) ∧ ¬(c = cr) := by
  have hne : ∀ (d : Char), c = d →
      ((d.isLower || (d.isDigit || decide (d = '-'))) = false) → False := by
    intro d hcd hd
    rw [hcd, hd] at h
    cases h
  have h1 : ¬(c = ' ') := fun hc => hne ' ' hc (by decide)
  have h2 : ¬(c = '\t') := fun hc => hne '\t' hc (by decide)
  have h3 : ¬(c = lf) := fun hc => hne lf hc (by decide)
  have h4 : ¬(c = cr) := fun hc => hne cr hc (by decide)
  have h5 : ¬(c = Char.ofNat 11) := fun hc => hne (Char.ofNat 11) hc (by decide)
  have h6 : ¬(c = Char.ofNat 12) := fun hc => hne (Char.ofNat 12) hc (by decide)
  exact ⟨by simp [isJsSpace, h1, h2, h3, h4, h5, h6], h3, h4⟩

theorem validDriverName_facts (name : Str) (h : validDriverName name = true) :
    name ≠ [] ∧ (∀ c ∈ name, isJsSpace c = false ∧ ¬(c = lf) ∧ ¬(c = cr)) ∧
      name.dropWhile isJsSpace = name := by
  simp only [validDriverName, Bool.and_eq_true, List.all_eq_true] at h
  have hne : name ≠ [] := by
    intro hnil
    rw [hnil] at h
    simp at h
  have hchars : ∀ c ∈ name, isJsSpace c = false ∧ ¬(c = lf) ∧ ¬(c = cr) := by
    intro c hc
    exact validChar_facts c (by simpa [Bool.or_assoc] using h.2 c hc)
  refine ⟨hne, hchars, ?_⟩
  cases name with
  | nil => rfl
  | cons c rest =>
    have := (hchars c (List.mem_cons_self _ _)).1
    simp [List.dropWhile, this]

theorem stripStr_append (p r : Str) : stripStr p (p ++ r) = some r := by
  induction p with
  | nil => rfl
  | cons c ps ih => simp [stripStr, ih]

theorem matchesAssocRE_nil (name : Str) : matchesAssocRE name [] = false := rfl

theorem matchAssocCoreAt_body (name : Str) (h : validDriverName name = true) :
    matchAssocCoreAt name ("package-lock.json merge=".toList ++ name) = true := by
  have hsplit : "package-lock.json merge=".toList ++ name =
      "package-lock.json".toList ++ (' ' :: ("merge".toList ++ ('=' :: name))) := rfl
  rw [matchAssocCoreAt, hsplit, stripStr_append]
  dsimp only
  rw [stripStr_append]
  dsimp only
  have hdrop : List.dropWhile isJsSpace ('=' :: name) = '=' :: name := by
    simp [List.dropWhile_cons, (by decide : isJsSpace '=' = false)]
  rw [hdrop]
  show (isJsSpace ' ' && decide (List.dropWhile isJsSpace name = name)) = true
  rw [(validDriverName_facts name h).2.2]
  simp [isJsSpace]

theorem matchesAssocRE_body (name : Str) (h : validDriverName name = true) :
    matchesAssocRE name ("package-lock.json merge=".toList ++ name) = true := by
  have hshape : "package-lock.json merge=".toList ++ name =
      'p' :: ("ackage-lock.json merge=".toList ++ name) := rfl
  rw [hshape, matchesAssocRE.eq_def]
  dsimp only
  rw [← hshape, matchAssocCoreAt_body name h]
  rfl

theorem lf_cr_not_mem_assocBody (name : Str) (h : validDriverName name = true) :
    lf ∉ "package-lock.json merge=".toList ++ name ∧
      cr ∉ "package-lock.json merge=".toList ++ name := by
  constructor <;> intro hmem <;> rcases List.mem_append.mp hmem with hm | hm
  · exact absurd hm (by decide)
  · exact ((validDriverName_facts name h).2.1 lf hm).2.1 rfl
  · exact absurd hm (by decide)
  · exact ((validDriverName_facts name h).2.1 cr hm).2.2 rfl

theorem splitLinesCRLF_assocLine (name : Str) (h : validDriverName name = true) :
    splitLinesCRLF (assocLine name) =
      [("package-lock.json merge=".toList ++ name), []] := by
  have hbody := lf_cr_not_mem_assocBody name h
  have hassoc : assocLine name =
      ("package-lock.json merge=".toList ++ name) ++ lf :: [] := by
    simp [assocLine, List.append_assoc]
  rw [hassoc, splitLinesCRLF_append_lf _ _ hbody.2,
    splitLinesCRLF_singleton _ hbody.1 hbody.2]
  rfl

theorem filter_assocLine (name : Str) (h : validDriverName name = true) :
    (splitLinesCRLF (assocLine name)).filter (fun l => !matchesAssocRE name l) = [[]] := by
  rw [splitLinesCRLF_assocLine name h, List.filter_cons, List.filter_cons, List.filter_nil]
  rw [if_neg (by simp only [matchesAssocRE_body name h]; decide),
    if_pos (by simp only [matchesAssocRE_nil]; decide)]

theorem countP_assocLine (name : Str) (h : validDriverName name = true) :
    (splitLinesCRLF (assocLine name)).countP (matchesAssocRE name) = 1 := by
  rw [splitLinesCRLF_assocLine name h, List.countP_cons, List.countP_cons, List.countP_nil]
  rw [if_pos (matchesAssocRE_body name h), if_neg (by simp only [matchesAssocRE_nil]; decide)]

theorem updateGitAttributes_second (name attr1 : Str) (hname : validDriverName name = true)
    (hattr : attr1 = [] ∨ ∃ A0, attr1 = A0 ++ [lf] ∧ cr ∉ A0 ∧
      ∀ l ∈ splitLinesCRLF A0, matchesAssocRE name l = false) :
    updateGitAttributes name (some (attr1 ++ assocLine name)) = attr1 ++ assocLine name ∧
      (splitLinesCRLF (attr1 ++ assocLine name)).countP (matchesAssocRE name) = 1 := by
  rcases hattr with h1 | ⟨A0, hA0eq, hA0cr, hA0lines⟩
  · subst h1
    rw [List.nil_append]
    constructor
    · have hu : updateGitAttributes name (some (assocLine name)) =
          (if !(joinNL ((splitLinesCRLF (assocLine name)).filter
                  (fun l => !matchesAssocRE name l))).isEmpty &&
               !endsWithNLCR (joinNL ((splitLinesCRLF (assocLine name)).filter
                  (fun l => !matchesAssocRE name l)))
           then [lf] else joinNL ((splitLinesCRLF (assocLine name)).filter
              (fun l => !matchesAssocRE name l))) ++ assocLine name := rfl
      rw [hu, filter_assocLine name hname]
      simp [joinNL]
    · exact countP_assocLine name hname
  · subst hA0eq
    have hXassoc : (A0 ++ [lf]) ++ assocLine name = A0 ++ lf :: assocLine name := by
      rw [List.append_assoc]
      rfl
    have hsplitr : splitLinesCRLF ((A0 ++ [lf]) ++ assocLine name) =
        splitLinesCRLF A0 ++ [("package-lock.json merge=".toList ++ name), []] := by
      rw [hXassoc, splitLinesCRLF_append_lf _ _ hA0cr, splitLinesCRLF_assocLine name hname]
    have hfilterr : (splitLinesCRLF ((A0 ++ [lf]) ++ assocLine name)).filter
        (fun l => !matchesAssocRE name l) = splitLinesCRLF A0 ++ [[]] := by
      rw [hsplitr, List.filter_append,
        List.filter_eq_self.mpr (fun l hl => by rw [hA0lines l hl]; rfl)]
      congr 1
      rw [List.filter_cons, List.filter_cons, List.filter_nil]
      rw [if_neg (by simp only [matchesAssocRE_body name hname]; decide),
        if_pos (by simp only [matchesAssocRE_nil]; decide)]
    have hjoin : joinNL (splitLinesCRLF A0 ++ [[]]) = A0 ++ [lf] := by
      rw [joinNL_append_nil _ (splitLinesCRLF_ne_nil A0), joinNL_splitLinesCRLF A0 hA0cr]
    have hends : endsWithNLCR (A0 ++ [lf]) = true := by
      simp only [endsWithNLCR, List.getLast?_concat]
      simp
    constructor
    · have hu : updateGitAttributes name (some ((A0 ++ [lf]) ++ assocLine name)) =
          (if !(joinNL ((splitLinesCRLF ((A0 ++ [lf]) ++ assocLine name)).filter
                  (fun l => !matchesAssocRE name l))).isEmpty &&
               !endsWithNLCR (joinNL ((splitLinesCRLF ((A0 ++ [lf]) ++ assocLine name)).filter
                  (fun l => !matchesAssocRE name l)))
           then [lf] else joinNL ((splitLinesCRLF ((A0 ++ [lf]) ++ assocLine name)).filter
              (fun l => !matchesAssocRE name l))) ++ assocLine name := rfl
      rw [hu, hfilterr, hjoin, hends]
      simp
    · rw [hsplitr, List.countP_append,
        List.countP_eq_zero.mpr (fun l hl => by rw [hA0lines l hl]; exact Bool.false_ne_true)]
      rw [List.countP_cons, List.countP_cons, List.countP_nil]
      rw [if_pos (matchesAssocRE_body name hname),
        if_neg (by simp only [matchesAssocRE_nil]; decide)]

/-- Claim C6 (amended: restricted to prior contents in which every
carriage return is immediately followed by a line feed): two calls of the
association update with the same driver name produce identical content,
and the content after the (second) call holds exactly one line matching
the association regex for that driver. -/
theorem updateGitAttributes_idempotent :
    ∀ (name x : Str), validDriverName name = true → noBareCR x = true →
      updateGitAttributes name (some (updateGitAttributes name (some x))) =
          updateGitAttributes name (some x) ∧
        (splitLinesCRLF (updateGitAttributes name (some x))).countP
          (matchesAssocRE name) = 1 := by
  intro name x hname hx
  have hlinesx := noBareCR_lines x.length x le_rfl hx
  have hu : updateGitAttributes name (some x) =
      (if !(joinNL ((splitLinesCRLF x).filter (fun l => !matchesAssocRE name l))).isEmpty &&
           !endsWithNLCR (joinNL ((splitLinesCRLF x).filter (fun l => !matchesAssocRE name l)))
       then [lf] else joinNL ((splitLinesCRLF x).filter (fun l => !matchesAssocRE name l)))
        ++ assocLine name := rfl
  generalize hF : (splitLinesCRLF x).filter (fun l => !matchesAssocRE name l) = L at hu
  have hlinesL : ∀ l ∈ L, lf ∉ l ∧ cr ∉ l := by
    intro l hl
    rw [← hF] at hl
    exact hlinesx l (List.mem_filter.mp hl).1
  have hnomatchL : ∀ l ∈ L, matchesAssocRE name l = false := by
    intro l hl
    rw [← hF] at hl
    have := (List.mem_filter.mp hl).2
    simpa using this
  have hcr0 : cr ∉ joinNL L := cr_not_mem_joinNL L (fun l hl => (hlinesL l hl).2)
  have hattr : (if !(joinNL L).isEmpty && !endsWithNLCR (joinNL L) then [lf] else joinNL L)
        = [] ∨
      ∃ A0, (if !(joinNL L).isEmpty && !endsWithNLCR (joinNL L) then [lf] else joinNL L)
          = A0 ++ [lf] ∧ cr ∉ A0 ∧
        ∀ l ∈ splitLinesCRLF A0, matchesAssocRE name l = false := by
    by_cases h0 : joinNL L = []
    · left
      rw [h0]
      simp
    · right
      have hLne : L ≠ [] := fun h => h0 (by rw [h]; rfl)
      have hsplitJ : splitLinesCRLF (joinNL L) = L := splitLinesCRLF_joinNL L hLne hlinesL
      by_cases hend : endsWithNLCR (joinNL L) = true
      · have hlast : (joinNL L).getLast? = some lf := by
          revert hend
          simp only [endsWithNLCR]
          cases hgl : (joinNL L).getLast? with
          | none => simp
          | some c =>
            intro hend
            have hor : c = lf ∨ c = cr := by simpa using hend
            rcases hor with hc | hc
            · rw [hc]
            · exfalso
              have hdec := List.dropLast_append_getLast? c (Option.mem_def.mpr hgl)
              have hcmem : c ∈ joinNL L := by
                rw [← hdec]
                exact List.mem_append_right _ (List.mem_cons_self _ _)
              rw [hc] at hcmem
              exact hcr0 hcmem
        have hdecomp : (joinNL L).dropLast ++ [lf] = joinNL L :=
          List.dropLast_append_getLast? lf (Option.mem_def.mpr hlast)
        refine ⟨(joinNL L).dropLast, ?_, ?_, ?_⟩
        · rw [hend]
          simp only [Bool.not_true, Bool.and_false, if_false]
          exact hdecomp.symm
        · exact fun hmem => hcr0 (List.dropLast_subset _ hmem)
        · intro l hl
          have hcrA0 : cr ∉ (joinNL L).dropLast :=
            fun hmem => hcr0 (List.dropLast_subset _ hmem)
          have hsplit2 : splitLinesCRLF ((joinNL L).dropLast) ++ [[]] = L := by
            conv_rhs => rw [← hsplitJ, ← hdecomp]
            rw [splitLinesCRLF_append_lf _ _ hcrA0]
            rfl
          refine hnomatchL l ?_
          rw [← hsplit2]
          exact List.mem_append_left _ hl
      · refine ⟨[], ?_, by simp, ?_⟩
        · have hne : (joinNL L).isEmpty = false := by
            rw [← Bool.not_eq_true, List.isEmpty_iff]
            exact h0
          have hend2 : endsWithNLCR (joinNL L) = false := by
            rw [← Bool.not_eq_true]
            exact hend
          rw [hne, hend2]
          simp
        · intro l hl
          simp only [splitLinesCRLF.eq_1, List.mem_singleton] at hl
          subst hl
          exact matchesAssocRE_nil name
  obtain ⟨heq, hcount⟩ := updateGitAttributes_second name _ hname hattr
  rw [hu]
  exact ⟨heq, hcount⟩

theorem updateGitAttributes_idempotent_witness :
    validDriverName ['d'] = true ∧ noBareCR "keep\n".toList = true ∧
      (updateGitAttributes ['d'] (some (updateGitAttributes ['d'] (some "keep\n".toList))) =
          updateGitAttributes ['d'] (some "keep\n".toList) ∧
        (splitLinesCRLF (updateGitAttributes ['d'] (some "keep\n".toList))).countP
          (matchesAssocRE ['d']) = 1) :=
  ⟨by decide, by decide,
    updateGitAttributes_idempotent ['d'] "keep\n".toList (by decide) (by decide)⟩

theorem goodGlob_facts (g : Str) (h : goodGlob g = true) :
    g ≠ [] ∧ ∀ c ∈ g, isQuoteChar c = false ∧ ¬(c = ']') := by
  simp only [goodGlob, Bool.and_eq_true, List.all_eq_true] at h
  refine ⟨fun hnil => by rw [hnil] at h; simp at h, ?_⟩
  intro c hc
  obtain ⟨h1, h2⟩ := h.2 c hc
  constructor
  · cases hq : isQuoteChar c
    · rfl
    · rw [hq] at h1
      exact absurd h1 (by decide)
  · intro hcb
    rw [hcb] at h2
    exact absurd h2 (by decide)

theorem stripStr_cons_ne {p c : Char} (ps cs : Str) (h : ¬(c = p)) :
    stripStr (p :: ps) (c :: cs) = none := by
  simp [stripStr, h]

theorem extractQuotedGo_none_cons_quote {c : Char} (r : Str) (hc : isQuoteChar c = true) :
    extractQuotedGo none (c :: r) = extractQuotedGo (some []) r := by
  rw [extractQuotedGo.eq_def]
  dsimp only
  rw [if_pos hc]

theorem extractQuotedGo_none_cons_other {c : Char} (r : Str) (hc : isQuoteChar c = false) :
    extractQuotedGo none (c :: r) = extractQuotedGo none r := by
  rw [extractQuotedGo.eq_def]
  dsimp only
  rw [if_neg (by rw [hc]; exact Bool.false_ne_true)]

theorem extractQuotedGo_some_cons_other {c : Char} (acc r : Str) (hc : isQuoteChar c = false) :
    extractQuotedGo (some acc) (c :: r) = extractQuotedGo (some (c :: acc)) r := by
  rw [extractQuotedGo.eq_def]
  dsimp only
  rw [if_neg (by rw [hc]; exact Bool.false_ne_true)]

theorem extractQuotedGo_some_cons_quote {c : Char} (acc r : Str) (hc : isQuoteChar c = true)
    (hacc : acc ≠ []) :
    extractQuotedGo (some acc) (c :: r) = acc.reverse :: extractQuotedGo none r := by
  rw [extractQuotedGo.eq_def]
  dsimp only
  rw [if_pos hc, if_neg hacc]

theorem extractQuotedGo_run (g : Str) :
    ∀ (acc r : Str), (∀ c ∈ g, isQuoteChar c = false) →
      extractQuotedGo (some acc) (g ++ r) = extractQuotedGo (some (g.reverse ++ acc)) r := by
  induction g with
  | nil => intro acc r _; simp
  | cons c g ih =>
    intro acc r h
    have hc := h c (List.mem_cons_self _ _)
    rw [List.cons_append, extractQuotedGo_some_cons_other _ _ hc,
      ih (c :: acc) r (fun d hd => h d (List.mem_cons_of_mem _ hd))]
    rw [List.reverse_cons, List.append_assoc]
    rfl

theorem extractQuotedGo_skip (cs : Str) :
    ∀ (rest : Str), (∀ c ∈ cs, isQuoteChar c = false) →
      extractQuotedGo none (cs ++ rest) = extractQuotedGo none rest := by
  induction cs with
  | nil => intro rest _; rfl
  | cons c cs ih =>
    intro rest h
    rw [List.cons_append,
      extractQuotedGo_none_cons_other _ (h c (List.mem_cons_self _ _)),
      ih rest (fun d hd => h d (List.mem_cons_of_mem _ hd))]

theorem extractQuotedGo_quoted (g rest : Str) (hne : g ≠ [])
    (h : ∀ c ∈ g, isQuoteChar c = false) :
    extractQuotedGo none (dq :: (g ++ dq :: rest)) = g :: extractQuotedGo none rest := by
  rw [extractQuotedGo_none_cons_quote _ (by decide), extractQuotedGo_run g [] (dq :: rest) h,
    extractQuotedGo_some_cons_quote _ _ (by decide)
      (by simp only [List.append_nil]; exact fun hh => hne (by simpa using congrArg List.reverse hh))]
  simp

theorem extractQuoted_renderGlobList (globs : List Str)
    (h : ∀ g ∈ globs, goodGlob g = true) :
    extractQuotedGo none (renderGlobList globs) = globs := by
  induction globs with
  | nil => rfl
  | cons g gs ih =>
    have hg := goodGlob_facts g (h g (List.mem_cons_self _ _))
    have hgq : ∀ c ∈ g, isQuoteChar c = false := fun c hc => (hg.2 c hc).1
    cases gs with
    | nil =>
      show extractQuotedGo none (dq :: (g ++ dq :: [])) = [g]
      rw [extractQuotedGo_quoted g [] hg.1 hgq]
      rfl
    | cons g2 gs2 =>
      show extractQuotedGo none (dq :: (g ++ dq :: ',' :: ' ' :: renderGlobList (g2 :: gs2)))
          = g :: g2 :: gs2
      rw [extractQuotedGo_quoted g _ hg.1 hgq,
        extractQuotedGo_none_cons_other _ (by decide),
        extractQuotedGo_none_cons_other _ (by decide),
        ih (fun x hx => h x (List.mem_cons_of_mem _ hx))]

theorem mem_renderGlobList (globs : List Str) (h : ∀ g ∈ globs, goodGlob g = true) :
    ∀ c ∈ renderGlobList globs, ¬(c = ']') := by
  induction globs with
  | nil => simp [renderGlobList]
  | cons g gs ih =>
    have hg := goodGlob_facts g (h g (List.mem_cons_self _ _))
    cases gs with
    | nil =>
      intro c hc
      show ¬(c = ']')
      rcases List.mem_cons.mp hc with hc | hc
      · subst hc; decide
      · rcases List.mem_append.mp hc with hc | hc
        · exact (hg.2 c hc).2
        · rcases List.mem_singleton.mp hc with rfl; decide
    | cons g2 gs2 =>
      intro c hc
      rcases List.mem_cons.mp hc with hc | hc
      · subst hc; decide
      · rcases List.mem_append.mp hc with hc | hc
        · exact (hg.2 c hc).2
        · rcases List.mem_cons.mp hc with hc | hc
          · subst hc; decide
          · rcases List.mem_cons.mp hc with hc | hc
            · subst hc; decide
            · rcases List.mem_cons.mp hc with hc | hc
              · subst hc; decide
              · exact ih (fun x hx => h x (List.mem_cons_of_mem _ hx)) c hc

theorem takeWhile_append_stop {p : Char → Bool} (A : Str) :
    ∀ (b : Char) (s : Str), (∀ c ∈ A, p c = true) → p b = false →
      (A ++ b :: s).takeWhile p = A := by
  induction A with
  | nil =>
    intro b s _ hb
    simp [List.takeWhile_cons, hb]
  | cons a A ih =>
    intro b s hA hb
    rw [List.cons_append, List.takeWhile_cons, hA a (List.mem_cons_self _ _)]
    simp only [if_true]
    rw [ih b s (fun c hc => hA c (List.mem_cons_of_mem _ hc)) hb]

theorem matchHeaderAt_cons_ne {c : Char} (l : Str) (hc : ¬(c = dq)) :
    matchHeaderAt (c :: l) = none := by
  have hws : wsLiteral = dq :: ('w' :: 'o' :: 'r' :: 'k' :: 's' :: 'p' :: 'a' :: 'c' :: 'e' :: 's' :: [dq]) := rfl
  rw [matchHeaderAt, hws, stripStr_cons_ne _ _ hc]
  rfl

theorem matchHeaderAt_render (globs : List Str) (s : Str) :
    matchHeaderAt (renderWorkspaces globs ++ s) =
      some (renderGlobList globs ++ ']' :: s) := by
  have hshape : renderWorkspaces globs ++ s =
      wsLiteral ++ (':' :: ' ' :: '[' :: (renderGlobList globs ++ (']' :: s))) := by
    simp [renderWorkspaces, List.append_assoc]
  have hdrop2 : (' ' :: '[' :: (renderGlobList globs ++ (']' :: s))).dropWhile isJsSpace =
      '[' :: (renderGlobList globs ++ (']' :: s)) := by
    rw [List.dropWhile_cons, if_pos (by decide), List.dropWhile_cons, if_neg (by decide)]
  rw [matchHeaderAt, hshape, stripStr_append, Option.some_bind, List.dropWhile_cons,
    if_neg (by decide)]
  rw [show expectChar ':' (':' :: (' ' :: '[' :: (renderGlobList globs ++ (']' :: s)))) =
      some (' ' :: '[' :: (renderGlobList globs ++ (']' :: s))) from by simp [expectChar],
    Option.some_bind, hdrop2]
  simp [expectChar]

theorem firstWorkspacesCapture_cons (c : Char) (rest : Str) :
    firstWorkspacesCapture (c :: rest) =
      (match matchHeaderAt (c :: rest) with
       | some after =>
         if ']' ∈ after.dropWhile isJsSpace
         then some ((after.dropWhile isJsSpace).takeWhile (fun ch => !(ch = ']')))
         else firstWorkspacesCapture rest
       | none => firstWorkspacesCapture rest) := by
  rw [firstWorkspacesCapture.eq_def]

theorem firstWorkspacesCapture_skip (cs : Str) :
    ∀ (rest : Str), dq ∉ cs →
      firstWorkspacesCapture (cs ++ rest) = firstWorkspacesCapture rest := by
  induction cs with
  | nil => intro rest _; rfl
  | cons c cs ih =>
    intro rest h
    have hc : ¬(c = dq) := fun hcd => h (by rw [hcd]; exact List.mem_cons_self _ _)
    rw [List.cons_append, firstWorkspacesCapture_cons,
      matchHeaderAt_cons_ne _ hc]
    exact ih rest (fun hm => h (List.mem_cons_of_mem _ hm))

theorem dropWhile_render (globs : List Str) (s : Str) :
    (renderGlobList globs ++ ']' :: s).dropWhile isJsSpace =
      renderGlobList globs ++ ']' :: s := by
  cases globs with
  | nil => simp [renderGlobList, List.dropWhile_cons, (by decide : isJsSpace ']' = false)]
  | cons g gs =>
    cases gs with
    | nil =>
      show ((dq :: (g ++ [dq])) ++ ']' :: s).dropWhile isJsSpace = _
      rw [List.cons_append, List.dropWhile_cons, if_neg (by decide)]
      simp [renderGlobList, List.append_assoc]
    | cons g2 gs2 =>
      show ((dq :: (g ++ dq :: ',' :: ' ' :: renderGlobList (g2 :: gs2))) ++ ']' :: s).dropWhile
          isJsSpace = _
      rw [List.cons_append, List.dropWhile_cons, if_neg (by decide)]
      simp [renderGlobList, List.append_assoc]

theorem firstWorkspacesCapture_render (globs : List Str) (s : Str)
    (h : ∀ g ∈ globs, goodGlob g = true) :
    firstWorkspacesCapture (renderWorkspaces globs ++ s) = some (renderGlobList globs) := by
  cases hr : renderWorkspaces globs ++ s with
  | nil =>
    exfalso
    have : renderWorkspaces globs ++ s ≠ [] := by
      simp [renderWorkspaces, wsLiteral]
    exact this hr
  | cons c t =>
    rw [← hr, hr, firstWorkspacesCapture_cons, ← hr, matchHeaderAt_render globs s]
    dsimp only
    rw [dropWhile_render globs s]
    rw [if_pos (List.mem_append_right _ (List.mem_cons_self _ _))]
    rw [takeWhile_append_stop _ _ _ ?_ (by decide)]
    intro c hc
    have := mem_renderGlobList globs h c hc
    simp [this]

theorem getWorkspaces_some (content : Str) :
    getWorkspaces (some content) =
      (match firstWorkspacesCapture content with
       | some cap => if cap ≠ [] then extractQuoted cap else []
       | none => []) := rfl

/-- Claim C9: workspace-glob extraction is a total function of the read
outcome: a read failure yields the empty list; a text with no match of the
workspaces regex yields the empty list; and any text holding a well-formed
`"workspaces": [...]` array of quoted globs — whatever quote-free text
surrounds it, e.g. conflict markers — yields exactly those globs in
order. -/
theorem getWorkspaces_spec :
    getWorkspaces none = [] ∧
      (∀ content, firstWorkspacesCapture content = none →
         getWorkspaces (some content) = []) ∧
      (∀ (p s : Str) (globs : List Str), dq ∉ p →
         (∀ g ∈ globs, goodGlob g = true) →
         getWorkspaces (some (p ++ (renderWorkspaces globs ++ s))) = globs) := by
  refine ⟨rfl, ?_, ?_⟩
  · intro content h
    rw [getWorkspaces_some, h]
  · intro p s globs hp hglobs
    rw [getWorkspaces_some, firstWorkspacesCapture_skip p _ hp,
      firstWorkspacesCapture_render globs s hglobs]
    dsimp only
    cases globs with
    | nil => rfl
    | cons g gs =>
      have hne : renderGlobList (g :: gs) ≠ [] := by
        cases gs <;> simp [renderGlobList]
      rw [if_pos hne]
      exact extractQuoted_renderGlobList _ hglobs

theorem getWorkspaces_spec_witness :
    getWorkspaces (some ("<<<<<<< ours\nx: 1\n=======\nx: 2\n>>>>>>> theirs\n".toList ++
        (renderWorkspaces ["packages/a".toList, "apps/b".toList] ++ "\nrest".toList))) =
      ["packages/a".toList, "apps/b".toList] :=
  getWorkspaces_spec.2.2 _ _ _ (by decide) (by decide)

end PLMD
